import Mathlib

/-!
Verification development for the type-inference core of the kphp compiler:
the interned-key subsystem (compiler/inferring/key.cpp) and the TypeData
lattice node (compiler/inferring/type-data.h).

Machine integers are modelled as Nat/Int with explicit reduction modulo
2^32 (C `unsigned int` arithmetic and the implementation-defined
unsigned-to-int conversion) and modulo 2^64 (the 64-bit hash).
C++ strings are modelled as lists of byte values.
-/

/-! ## Machine-integer helpers -/

/-- The C cast `(unsigned int)key` applied to a (possibly negative) integer:
reduce modulo 2^32 into the range [0, 2^32). -/
def toUnsigned32 (i : Int) : Nat := (i % 4294967296).toNat

/-- The implementation-defined C conversion of an `unsigned int` value to
`int`: two's-complement reinterpretation. -/
def toSigned32 (n : Nat) : Int :=
  if n % 4294967296 < 2147483648 then ((n % 4294967296 : Nat) : Int)
  else ((n % 4294967296 : Nat) : Int) - 4294967296

/-! ## Key interner (compiler/inferring/key.cpp) -/

/-- A C++ `std::string` modelled as its list of byte values. -/
abbrev ByteStr := List Nat

/-- Modelled from the spec: `hash_ll` (declared in compiler/common.h, which is
not under src/) — "lookup keyed by a hash of `s`".  Modelled as a 64-bit
polynomial hash of the byte string; like any function from arbitrary strings
into 64 bits, it is not injective. -/
def hash_ll (s : ByteStr) : Nat :=
  s.foldl (fun h c => (h * 31 + c) % 18446744073709551616) 0

/-- `Key` from key.h (only its id field is relevant): an `int` id. -/
structure Key where
  id : Int
deriving DecidableEq, Repr

/-- The process-wide static tables of key.cpp:
`int_keys_ht` buckets keyed by `(unsigned int)key`, `string_keys_ht` buckets
keyed by `hash_ll(s)`, the id → original-string name table, and the shared
counter `n_string_keys_ht`. -/
structure InternerState where
  int_keys_ht : List (Nat × Int)
  string_keys_ht : List (Nat × Int)
  string_key_names_ht : List (Int × ByteStr)
  n_string_keys_ht : Nat
deriving DecidableEq, Repr

/-- The initial (empty) static tables. -/
def initState : InternerState :=
  { int_keys_ht := [], string_keys_ht := [], string_key_names_ht := [],
    n_string_keys_ht := 0 }

/-- `Key::any_key()`: the singleton Key with id 0. -/
def Key.any_key : Key := ⟨0⟩

/-- `Key::int_key(int key)`: look the bucket for `(unsigned int)key` up; if
cached return it, else create `Key((unsigned int)key * 2 + 1)` (unsigned
32-bit arithmetic, stored in an `int` field) and cache it. -/
def Key.int_key (key : Int) (st : InternerState) : Key × InternerState :=
  let u := toUnsigned32 key
  match st.int_keys_ht.lookup u with
  | some id => (⟨id⟩, st)
  | none =>
    let id := toSigned32 (u * 2 + 1)
    (⟨id⟩, { st with int_keys_ht := (u, id) :: st.int_keys_ht })

/-- `Key::string_key(const std::string &key)`: look the bucket for
`hash_ll(key)` up; if cached return it (note: the cache is keyed by the hash,
not by the string itself); else fetch-and-add the shared counter obtaining
`old_n`, create `Key(old_n * 2 + 2)`, record the id → string entry in the
name table and cache the key.  The counter is modelled as an unbounded Nat
(signed `int` overflow of `old_n * 2 + 2` would be undefined behaviour). -/
def Key.string_key (s : ByteStr) (st : InternerState) : Key × InternerState :=
  let h := hash_ll s
  match st.string_keys_ht.lookup h with
  | some id => (⟨id⟩, st)
  | none =>
    let old_n := st.n_string_keys_ht
    let id : Int := (old_n : Int) * 2 + 2
    (⟨id⟩, { st with
       string_keys_ht := (h, id) :: st.string_keys_ht,
       string_key_names_ht := (id, s) :: st.string_key_names_ht,
       n_string_keys_ht := old_n + 1 })

/-- Modelled from the spec: `Key::is_int_key` (key.h is not under src/) —
"odd ids = integer indices". -/
def Key.is_int_key (k : Key) : Bool := k.id % 2 != 0

/-- Modelled from the spec: `Key::is_string_key` (key.h is not under src/) —
"even ids ≥ 2 = string indices". -/
def Key.is_string_key (k : Key) : Bool := k.id % 2 == 0 && 2 ≤ k.id

/-- Modelled from the spec: `Key::is_any_key` (key.h is not under src/) —
"0 = the wildcard any-index key". -/
def Key.is_any_key (k : Key) : Bool := k.id == 0

/-- Decimal digit characters of a natural number (the `%d` rendering of
`dl_pstr`), most significant first; fuel-indexed so that it evaluates by
kernel reduction (the fuel `n + 1` always suffices). -/
def natDigitsAux : Nat → Nat → List Nat → List Nat
  | 0, _, acc => acc
  | fuel + 1, n, acc =>
    if n < 10 then (48 + n) :: acc
    else natDigitsAux fuel (n / 10) ((48 + n % 10) :: acc)

/-- Decimal rendering of a natural number as a byte string. -/
def natToDecimal (n : Nat) : ByteStr := natDigitsAux (n + 1) n []

/-- Decimal rendering of an integer as a byte string (45 is the minus sign). -/
def intToDecimal (i : Int) : ByteStr :=
  if i < 0 then 45 :: natToDecimal i.natAbs else natToDecimal i.toNat

/-- The fixed label "Any" as a byte string. -/
def anyLabel : ByteStr := [65, 110, 121]

/-- `Key::to_string()`: integer keys render the decoded integer
`(id - 1) / 2` (C division truncates toward zero, hence `Int.tdiv`); string
keys look their original string up in the name table (a missing entry is a
fatal null dereference, modelled as `none`); the any-key renders "Any"; any
other id reaches `dl_unreachable` (fatal), modelled as `none`. -/
def Key.to_string (k : Key) (st : InternerState) : Option ByteStr :=
  if k.is_int_key then some (intToDecimal (Int.tdiv (k.id - 1) 2))
  else if k.is_string_key then
    match st.string_key_names_ht.lookup k.id with
    | some s => some s
    | none => none
  else if k.is_any_key then some anyLabel
  else none

/-! ## Two-thread race model for `Key::string_key`

`string_key` performs a lock-free null check of the bucket, and — if the
check saw null — acquires the bucket lock and unconditionally creates a new
key (there is no second check of `node->data` under the lock).  Both calls
are for the same string, so both threads address the same bucket.  Each
thread therefore executes two atomic actions: the lock-free check, and the
locked create (the critical section is one atomic action because the lock is
held throughout it). -/

/-- Program counter of one thread running `Key::string_key`. -/
inductive ThreadPC where
  | start
  | createPending
  | done (id : Int)
deriving DecidableEq, Repr

/-- Shared state of the race: the bucket for the string's hash, the shared
counter `n_string_keys_ht`, and both threads' program counters. -/
structure RaceState where
  bucket : Option Int
  counter : Nat
  tA : ThreadPC
  tB : ThreadPC
deriving DecidableEq, Repr

/-- Initial race state: empty bucket, counter 0, both threads at the start. -/
def raceInit : RaceState :=
  { bucket := none, counter := 0, tA := .start, tB := .start }

/-- Thread identifier. -/
inductive Tid where
  | A
  | B
deriving DecidableEq, Repr

/-- One atomic action of one thread, as `string_key` executes it: at
`start`, the lock-free check — return the cached key if the bucket is
non-null, else fall through to creation; at `createPending`, the locked
section — fetch-and-add the counter and overwrite the bucket with
`Key(old_n * 2 + 2)`, with no re-check of the bucket.  A finished thread
does nothing. -/
def threadAction (pc : ThreadPC) (bucket : Option Int) (counter : Nat) :
    ThreadPC × Option Int × Nat :=
  match pc with
  | .start =>
    match bucket with
    | some id => (.done id, bucket, counter)
    | none => (.createPending, bucket, counter)
  | .createPending =>
    let id : Int := (counter : Int) * 2 + 2
    (.done id, some id, counter + 1)
  | .done id => (.done id, bucket, counter)

/-- Run one scheduled step of the chosen thread. -/
def raceStep (t : Tid) (s : RaceState) : RaceState :=
  match t with
  | .A =>
    let r := threadAction s.tA s.bucket s.counter
    { s with tA := r.1, bucket := r.2.1, counter := r.2.2 }
  | .B =>
    let r := threadAction s.tB s.bucket s.counter
    { s with tB := r.1, bucket := r.2.1, counter := r.2.2 }

/-- Run a whole schedule (a list of thread choices). -/
def raceRun (sched : List Tid) (s : RaceState) : RaceState :=
  sched.foldl (fun s t => raceStep t s) s

/-! ## TypeData flag and generation model (compiler/inferring/type-data.h) -/

/-- `TypeData::flag_id_t::write_flag_e`. -/
def write_flag_e : Nat := 1

/-- `TypeData::flag_id_t::read_flag_e`. -/
def read_flag_e : Nat := 2

/-- `TypeData::flag_id_t::or_false_flag_e`. -/
def or_false_flag_e : Nat := 4

/-- `TypeData::flag_id_t::error_flag_e`. -/
def error_flag_e : Nat := 8

/-- The flag/generation fragment of one `TypeData` node: the `flags_`
bitset and the `generation_` stamp. -/
structure TDNode where
  flags_ : Nat
  generation_ : Int
deriving DecidableEq, Repr

/-- `TypeData::get_flag<FLAG>()`: `flags_ & FLAG`. -/
def get_flag (f : Nat) (n : TDNode) : Bool := n.flags_ &&& f != 0

/-- Modelled from the spec: `TypeData::on_changed()` (type-data.cpp is not
under src/) — "advances the node's generation stamp to the current global
generation value". -/
def on_changed (cur : Int) (n : TDNode) : TDNode := { n with generation_ := cur }

/-- The primary template `TypeData::set_flag<FLAG>(bool f)`
(type-data.h lines 144-153), used for the write, read and or_false flags:
if the flag is already set, `dl_assert(f, ...)` — clearing is fatal
(modelled as `none`); if it is unset and `f` is true, set it and call
`on_changed()`; otherwise do nothing. -/
def set_flag (f : Nat) (b : Bool) (cur : Int) (n : TDNode) : Option TDNode :=
  if get_flag f n then
    if b then some n else none
  else if b then
    some (on_changed cur { n with flags_ := n.flags_ ||| f })
  else some n

/-- The specialization `TypeData::set_flag<error_flag_e>(bool f)`
(type-data.h lines 155-165), restricted to a node with no parent:
if `f` is true and the flag is unset, set it — without calling
`on_changed()`; if `f` is false, do nothing at all (no assertion). -/
def set_flag_error (b : Bool) (n : TDNode) : TDNode :=
  if b then
    if get_flag error_flag_e n then n
    else { n with flags_ := n.flags_ ||| error_flag_e }
  else n

/-- One flag-setter call (`set_write_flag` / `set_read_flag` /
`set_or_false_flag` / `set_error_flag`). -/
inductive FlagOp where
  | setWrite (b : Bool)
  | setRead (b : Bool)
  | setOrFalse (b : Bool)
  | setError (b : Bool)
deriving DecidableEq, Repr

/-- Apply one flag-setter call under current global generation `cur`;
`none` models a fatal `dl_assert` failure. -/
def applyFlagOp (cur : Int) (op : FlagOp) (n : TDNode) : Option TDNode :=
  match op with
  | .setWrite b => set_flag write_flag_e b cur n
  | .setRead b => set_flag read_flag_e b cur n
  | .setOrFalse b => set_flag or_false_flag_e b cur n
  | .setError b => some (set_flag_error b n)

/-- Run a sequence of flag-setter calls, each paired with the value of the
current global generation at the time of the call. -/
def runFlagOps (ops : List (Int × FlagOp)) (n : TDNode) : Option TDNode :=
  match ops with
  | [] => some n
  | (cur, op) :: rest =>
    match applyFlagOp cur op n with
    | some m => runFlagOps rest m
    | none => none

/-! ## Error-flag propagation along the parent chain -/

/-- One node of an ancestor chain, for the error-flag propagation model:
its `flags_` bitset and the value of its configurable predicate
`should_proxy_error_flag_to_parent()` (whose implementation is in
type-data.cpp, not under src/; the spec calls it "a configurable
predicate", so it is carried as a per-node boolean). -/
structure ErrNode where
  flags_ : Nat
  proxy : Bool
deriving DecidableEq, Repr

/-- Whether an ancestor-chain node's error flag is set. -/
def errSet (n : ErrNode) : Bool := n.flags_ &&& error_flag_e != 0

/-- `TypeData::set_flag<error_flag_e>(true)` acting on a node given as the
head of its ancestor chain `[node, parent, grandparent, ...]` (the
`parent_` pointer of the last element is null): if the node's flag is
already set, nothing happens; else the flag is set and, when the node has a
parent and its predicate holds, the parent recursively receives the same
call. -/
def set_error_chain : List ErrNode → List ErrNode
  | [] => []
  | n :: rest =>
    if errSet n then n :: rest
    else { n with flags_ := n.flags_ ||| error_flag_e } ::
      (if n.proxy then set_error_chain rest else rest)

/-! ## TypeData structural tree, lattice join and depth collapse

The bodies of `TypeData::set_lca` and `TypeData::fix_inf_array` live in
type-data.cpp, which is not under src/; they are modelled from the spec
(§4.3).  A node carries a primitive-type tag, an optional class reference,
the four flags, an optional any-index child and a key-ordered list of keyed
children; generation stamps are omitted (the claims about the join are
explicitly about the structure with stamps allowed to differ).  The
primitive-tag join table and the class common-ancestor operation are
parameters (spec §9 leaves them open). -/

/-- Modelled from the spec: the structural content of a `TypeData` node. -/
inductive TDTree where
  | node (ptype : Nat) (cls : Option Nat) (wflag rflag offlag eflag : Bool)
      (anykey : Option TDTree) (subkeys : List (Int × TDTree)) : TDTree
deriving Repr

mutual

/-- Modelled from the spec: `TypeData::set_lca(rhs, save_or_false)` —
the primitive tag is joined by the supplied tag table `jT`, the class
reference by the supplied common-ancestor operation `jC`, flags are OR-ed
(`or_false` participating only when `so` holds), the any-index children are
joined together, and the keyed children are joined pointwise, a key present
in only one side being cloned. -/
def setLca (jT : Nat → Nat → Nat) (jC : Option Nat → Option Nat → Option Nat)
    (so : Bool) (t1 t2 : TDTree) : TDTree :=
  match t1, t2 with
  | .node p1 c1 w1 r1 o1 e1 a1 s1, .node p2 c2 w2 r2 o2 e2 a2 s2 =>
    .node (jT p1 p2) (jC c1 c2) (w1 || w2) (r1 || r2) (o1 || (so && o2))
      (e1 || e2) (setLcaOpt jT jC so a1 a2) (mergeSubkeys jT jC so s1 s2)
termination_by sizeOf t1 + sizeOf t2
decreasing_by all_goals (simp_wf; try omega)

/-- Join of the optional any-index children: a side's child is cloned when
the other side has none. -/
def setLcaOpt (jT : Nat → Nat → Nat) (jC : Option Nat → Option Nat → Option Nat)
    (so : Bool) (a1 a2 : Option TDTree) : Option TDTree :=
  match a1, a2 with
  | none, b => b
  | some x, none => some x
  | some x, some y => some (setLca jT jC so x y)
termination_by sizeOf a1 + sizeOf a2
decreasing_by all_goals (simp_wf; try omega)

/-- Pointwise join of the key-ordered children lists: keys present in both
sides are joined recursively, a key present in one side only is kept
(cloned, for the right side). -/
def mergeSubkeys (jT : Nat → Nat → Nat) (jC : Option Nat → Option Nat → Option Nat)
    (so : Bool) (l1 l2 : List (Int × TDTree)) : List (Int × TDTree) :=
  match l1, l2 with
  | [], b => b
  | a :: as_, [] => a :: as_
  | (k1, v1) :: r1, (k2, v2) :: r2 =>
    if k1 < k2 then (k1, v1) :: mergeSubkeys jT jC so r1 ((k2, v2) :: r2)
    else if k2 < k1 then (k2, v2) :: mergeSubkeys jT jC so ((k1, v1) :: r1) r2
    else (k1, setLca jT jC so v1 v2) :: mergeSubkeys jT jC so r1 r2
termination_by sizeOf l1 + sizeOf l2
decreasing_by all_goals (simp_wf; try omega)

end

mutual

/-- Structural depth of a tree (a leaf has depth 1). -/
def depthT (t : TDTree) : Nat :=
  match t with
  | .node _ _ _ _ _ _ a s => 1 + max (depthOpt a) (depthList s)
termination_by sizeOf t
decreasing_by all_goals (simp_wf; try omega)

/-- Depth of an optional child. -/
def depthOpt (a : Option TDTree) : Nat :=
  match a with
  | none => 0
  | some t => depthT t
termination_by sizeOf a
decreasing_by all_goals (simp_wf; try omega)

/-- Maximal depth over a keyed-children list. -/
def depthList (l : List (Int × TDTree)) : Nat :=
  match l with
  | [] => 0
  | (_, v) :: rest => max (depthT v) (depthList rest)
termination_by sizeOf l
decreasing_by all_goals (simp_wf; try omega)

end

/-- Truncate a tree to structural depth at most `fuel + 1`: beyond the
fuel, a node keeps its tag, class and flags but loses its children. -/
def truncTree (fuel : Nat) (t : TDTree) : TDTree :=
  match fuel, t with
  | 0, .node p c w r o e _ _ => .node p c w r o e none []
  | fuel + 1, .node p c w r o e a s =>
    .node p c w r o e (truncOpt fuel a) (truncList fuel s)
where
  /-- Truncate an optional child. -/
  truncOpt (fuel : Nat) : Option TDTree → Option TDTree
    | none => none
    | some t => some (truncTree fuel t)
  /-- Truncate every child of a keyed-children list. -/
  truncList (fuel : Nat) : List (Int × TDTree) → List (Int × TDTree)
    | [] => []
    | (k, v) :: rest => (k, truncTree fuel v) :: truncList fuel rest

/-- Modelled from the spec: `TypeData::fix_inf_array()` (type-data.cpp is
not under src/) — "detects unbounded recursive unfolding and collapses it
to a finite, terminating structural representation": collapse everything
below the depth bound, leaving trees already within the bound unchanged. -/
def fix_inf_array (bound : Nat) (t : TDTree) : TDTree := truncTree bound t

/-! ## Sample data used by the concrete witnesses -/

/-- First of a concrete pair of distinct strings with equal `hash_ll`. -/
def collideA : ByteStr := [1, 0, 0, 0, 0, 0, 0, 0, 0, 0, 0, 0, 0, 0]

/-- Second of a concrete pair of distinct strings with equal `hash_ll`. -/
def collideB : ByteStr := [0, 7, 17, 30, 23, 25, 12, 19, 26, 25, 10, 22, 24, 15]

/-- A concrete idempotent, commutative class-reference join: the common
value when both sides agree, no class otherwise. -/
def clsJoin (a b : Option Nat) : Option Nat := if a = b then a else none

/-- A small concrete structured type node. -/
def tdA : TDTree :=
  .node 1 (some 7) true false false false none
    [(1, .node 2 none false false false false none [])]

/-- Another small concrete structured type node. -/
def tdB : TDTree :=
  .node 3 none false true false false
    (some (.node 1 none false false false false none []))
    [(2, .node 5 none false false false false none [])]

/-- A concrete any-index chain of structural depth 5. -/
def tdDeep : TDTree :=
  .node 0 none false false false false
    (some (.node 1 none false false false false
      (some (.node 2 none false false false false
        (some (.node 3 none false false false false
          (some (.node 4 none false false false false none [])) [])) [])) [])) []

/-- A concrete tree of structural depth 2. -/
def tdShallow : TDTree :=
  .node 0 none false false false false
    (some (.node 1 none false false false false none [])) []

/-! ## Helper lemmas on the flag bitset -/

/-- A set flag stays set when more bits are OR-ed in. -/
theorem land_ne_zero_lor_left (a b f : Nat) (h : a &&& f ≠ 0) :
    (a ||| b) &&& f ≠ 0 := by
  have h1 : ¬ ∀ i, (a &&& f).testBit i = false :=
    fun hall => h (Nat.zero_of_testBit_eq_false hall)
  push_neg at h1
  obtain ⟨i, hi⟩ := h1
  have hi2 : (a &&& f).testBit i = true := by
    cases hab : (a &&& f).testBit i
    · exact absurd hab hi
    · rfl
  rw [Nat.testBit_land, Bool.and_eq_true] at hi2
  intro hz
  have hzb : ((a ||| b) &&& f).testBit i = false := by
    rw [hz]; exact Nat.zero_testBit i
  rw [Nat.testBit_land, Nat.testBit_lor] at hzb
  simp [hi2.1, hi2.2] at hzb

/-- A flag being OR-ed in ends up set. -/
theorem land_ne_zero_lor_right (a f : Nat) (h : f &&& f ≠ 0) :
    (a ||| f) &&& f ≠ 0 := by
  rw [Nat.lor_comm]
  exact land_ne_zero_lor_left f a f h

/-- OR-ing in a nonzero flag that was clear changes the bitset. -/
theorem lor_ne_of_land_eq_zero (a f : Nat) (hf : f ≠ 0) (h : a &&& f = 0) :
    a ||| f ≠ a := by
  have h1 : ¬ ∀ i, f.testBit i = false :=
    fun hall => hf (Nat.zero_of_testBit_eq_false hall)
  push_neg at h1
  obtain ⟨i, hi⟩ := h1
  have hif : f.testBit i = true := by
    cases hfb : f.testBit i
    · exact absurd hfb hi
    · rfl
  have hia : a.testBit i = false := by
    have : (a &&& f).testBit i = false := by rw [h]; exact Nat.zero_testBit i
    rw [Nat.testBit_land, hif, Bool.and_true] at this
    exact this
  intro he
  have : (a ||| f).testBit i = a.testBit i := by rw [he]
  rw [Nat.testBit_lor, hif, hia, Bool.or_true] at this
  exact Bool.noConfusion this

/-- A successful primary-template `set_flag` call leaves the bitset alone or
ORs the flag in. -/
theorem set_flag_some_flags (g : Nat) (b : Bool) (cur : Int) (n m : TDNode)
    (hm : set_flag g b cur n = some m) :
    m.flags_ = n.flags_ ∨ m.flags_ = n.flags_ ||| g := by
  unfold set_flag at hm
  split at hm
  · split at hm
    · exact Or.inl (by cases hm; rfl)
    · exact absurd hm (by simp)
  · split at hm
    · cases hm
      exact Or.inr rfl
    · exact Or.inl (by cases hm; rfl)

/-- The error-flag specialization leaves the bitset alone or ORs the error
flag in. -/
theorem set_flag_error_flags (b : Bool) (n : TDNode) :
    (set_flag_error b n).flags_ = n.flags_ ∨
    (set_flag_error b n).flags_ = n.flags_ ||| error_flag_e := by
  unfold set_flag_error
  split
  · split
    · exact Or.inl rfl
    · exact Or.inr rfl
  · exact Or.inl rfl

/-- Any successful flag-setter call leaves the bitset alone or ORs one flag
in. -/
theorem applyFlagOp_flags (cur : Int) (op : FlagOp) (n m : TDNode)
    (hm : applyFlagOp cur op n = some m) :
    ∃ g, m.flags_ = n.flags_ ∨ m.flags_ = n.flags_ ||| g := by
  cases op with
  | setWrite b => exact ⟨write_flag_e, set_flag_some_flags _ b cur n m hm⟩
  | setRead b => exact ⟨read_flag_e, set_flag_some_flags _ b cur n m hm⟩
  | setOrFalse b => exact ⟨or_false_flag_e, set_flag_some_flags _ b cur n m hm⟩
  | setError b =>
    cases hm
    exact ⟨error_flag_e, set_flag_error_flags b n⟩

/-- A set flag survives any successful sequence of flag-setter calls. -/
theorem runFlagOps_flag_preserved (f : Nat) :
    ∀ (ops : List (Int × FlagOp)) (n m : TDNode),
      runFlagOps ops n = some m → get_flag f n = true → get_flag f m = true := by
  intro ops
  induction ops with
  | nil =>
    intro n m hrun h
    cases hrun
    exact h
  | cons p rest ih =>
    intro n m hrun h
    unfold runFlagOps at hrun
    cases happ : applyFlagOp p.1 p.2 n with
    | none => rw [happ] at hrun; exact absurd hrun (by simp)
    | some n1 =>
      rw [happ] at hrun
      refine ih n1 m hrun ?C
      have hne : n.flags_ &&& f ≠ 0 := by simpa [get_flag, bne_iff_ne] using h
      have hne1 : n1.flags_ &&& f ≠ 0 := by
        obtain ⟨g, hg | hg⟩ := applyFlagOp_flags p.1 p.2 n n1 happ
        · rw [hg]; exact hne
        · rw [hg]; exact land_ne_zero_lor_left n.flags_ g f hne
      simpa [get_flag, bne_iff_ne] using hne1

/-- Claim C3: for the write, read and or_false flags of a TypeData node,
once the flag is observed true no successful sequence of flag-setter calls
ever shows it false again, and a call that attempts to clear a set flag hits
the fatal `dl_assert` contract violation (modelled as `none`). -/
theorem monotone_flags_never_cleared (f : Nat)
    (hf : f = write_flag_e ∨ f = read_flag_e ∨ f = or_false_flag_e)
    (n : TDNode) (h : get_flag f n = true) :
    (∀ (ops : List (Int × FlagOp)) (m : TDNode),
        runFlagOps ops n = some m → get_flag f m = true) ∧
    (∀ cur : Int, set_flag f false cur n = none) := by
  refine ⟨fun ops m hrun => runFlagOps_flag_preserved f ops n m hrun h,
    fun cur => ?C⟩
  simp [set_flag, h]

/-- Concrete instantiation of Claim C3: a node with the write flag set keeps
it through further setter calls, and clearing it is fatal. -/
theorem monotone_flags_never_cleared_witness :
    get_flag write_flag_e ⟨1, 0⟩ = true ∧
    runFlagOps [(7, .setRead true), (9, .setError true)] ⟨1, 0⟩ = some ⟨11, 7⟩ ∧
    get_flag write_flag_e ⟨11, 7⟩ = true ∧
    set_flag write_flag_e false 0 ⟨1, 0⟩ = none := by
  have h := monotone_flags_never_cleared write_flag_e (Or.inl rfl) ⟨1, 0⟩ (by decide)
  exact ⟨by decide, by decide,
    h.1 [(7, .setRead true), (9, .setError true)] ⟨11, 7⟩ (by decide), h.2 0⟩

/-- Claim C10: `set_error_flag(false)` is a silent no-op on every node,
whatever the current flag state: no flag is cleared, no fatal assertion
fires, the stamp does not move and the node is returned unchanged. -/
theorem set_error_flag_false_noop (cur : Int) (n : TDNode) :
    applyFlagOp cur (.setError false) n = some n := by
  simp [applyFlagOp, set_flag_error]

/-- A successful flag-setter call leaves the stamp alone or moves it to the
current global generation. -/
theorem applyFlagOp_gen (cur : Int) (op : FlagOp) (n m : TDNode)
    (hm : applyFlagOp cur op n = some m) :
    m.generation_ = n.generation_ ∨ m.generation_ = cur := by
  have hset : ∀ g b, set_flag g b cur n = some m →
      m.generation_ = n.generation_ ∨ m.generation_ = cur := by
    intro g b hs
    unfold set_flag at hs
    split at hs
    · split at hs
      · exact Or.inl (by cases hs; rfl)
      · exact absurd hs (by simp)
    · split at hs
      · cases hs
        exact Or.inr rfl
      · exact Or.inl (by cases hs; rfl)
  cases op with
  | setWrite b => exact hset _ b hm
  | setRead b => exact hset _ b hm
  | setOrFalse b => exact hset _ b hm
  | setError b =>
    cases hm
    unfold set_flag_error
    split
    · split
      · exact Or.inl rfl
      · exact Or.inl rfl
    · exact Or.inl rfl

/-- The stamp never decreases across a successful run whose
current-generation values are nondecreasing and start at or above the
node's stamp. -/
theorem runFlagOps_gen_mono :
    ∀ (ops : List (Int × FlagOp)) (n m : TDNode),
      runFlagOps ops n = some m →
      (∀ p ∈ ops, n.generation_ ≤ p.1) →
      (ops.map Prod.fst).Pairwise (fun a b : Int => a ≤ b) →
      n.generation_ ≤ m.generation_ := by
  intro ops
  induction ops with
  | nil =>
    intro n m hrun _ _
    cases hrun
    exact le_refl _
  | cons p rest ih =>
    intro n m hrun hcur hpair
    unfold runFlagOps at hrun
    cases happ : applyFlagOp p.1 p.2 n with
    | none => rw [happ] at hrun; exact absurd hrun (by simp)
    | some n1 =>
      rw [happ] at hrun
      have hhead : n.generation_ ≤ p.1 := hcur p (List.mem_cons_self p rest)
      have hgen := applyFlagOp_gen p.1 p.2 n n1 happ
      rw [List.map_cons, List.pairwise_cons] at hpair
      have hstep : n.generation_ ≤ n1.generation_ := by
        rcases hgen with hg | hg
        · rw [hg]
        · rw [hg]; exact hhead
      have hrest : ∀ q ∈ rest, n1.generation_ ≤ q.1 := by
        intro q hq
        rcases hgen with hg | hg
        · rw [hg]; exact hcur q (List.mem_cons_of_mem p hq)
        · rw [hg]; exact hpair.1 q.1 (List.mem_map_of_mem Prod.fst hq)
      exact le_trans hstep (ih n1 m hrun hrest hpair.2)

/-- Claim C4 (amended): across any successful run of flag-setter calls whose
current-generation values are nondecreasing and start at or above the node's
stamp, the stamp never decreases; a write/read/or_false setter that changes
nothing observable returns the node unchanged, and one that changes the
bitset advances the stamp to the current global generation; the error-flag
setter never touches the stamp, even when it does change the bitset. -/
theorem generation_stamp_behaviour
    (n m : TDNode) (ops : List (Int × FlagOp))
    (hcur : ∀ p ∈ ops, n.generation_ ≤ p.1)
    (hpair : (ops.map Prod.fst).Pairwise (fun a b : Int => a ≤ b))
    (hrun : runFlagOps ops n = some m) :
    n.generation_ ≤ m.generation_ ∧
    (∀ (f : Nat) (b : Bool) (cur : Int) (m1 : TDNode),
      (f = write_flag_e ∨ f = read_flag_e ∨ f = or_false_flag_e) →
      set_flag f b cur n = some m1 →
      (m1.flags_ = n.flags_ → m1 = n) ∧
      (m1.flags_ ≠ n.flags_ → m1.generation_ = cur)) ∧
    (∀ b : Bool, (set_flag_error b n).generation_ = n.generation_) := by
  refine ⟨runFlagOps_gen_mono ops n m hrun hcur hpair, ?C2, ?C3⟩
  · intro f b cur m1 hf hs
    have hfne : f ≠ 0 := by
      rcases hf with h | h | h <;> (rw [h]; decide)
    unfold set_flag at hs
    split at hs
    · split at hs
      · cases hs
        exact ⟨fun _ => rfl, fun hne => absurd rfl hne⟩
      · exact absurd hs (by simp)
    · rename_i hget
      split at hs
      · cases hs
        constructor
        · intro heq
          exfalso
          have h0 : n.flags_ &&& f = 0 := by
            by_contra hne
            exact hget (by simpa [get_flag, bne_iff_ne] using hne)
          exact lor_ne_of_land_eq_zero n.flags_ f hfne h0 heq
        · intro _
          rfl
      · cases hs
        exact ⟨fun _ => rfl, fun hne => absurd rfl hne⟩
  · intro b
    unfold set_flag_error
    split
    · split
      · rfl
      · rfl
    · rfl

/-- Claim C4 counterexample: setting a previously unset error flag changes
the node's observable state (the error flag becomes true) yet leaves the
generation stamp unchanged — the error-flag specialization never calls
`on_changed()`, so not every observable mutation advances the stamp. -/
theorem set_error_flag_skips_on_changed :
    applyFlagOp 5 (.setError true) ⟨0, 0⟩ = some ⟨8, 0⟩ ∧
    get_flag error_flag_e ⟨0, 0⟩ = false ∧
    get_flag error_flag_e ⟨8, 0⟩ = true ∧
    (⟨8, 0⟩ : TDNode).generation_ = (⟨0, 0⟩ : TDNode).generation_ := by
  exact ⟨by decide, by decide, by decide, rfl⟩

/-- Concrete instantiation of Claim C4's amended theorem. -/
theorem generation_stamp_behaviour_witness :
    runFlagOps [(1, .setWrite true), (2, .setRead true)] ⟨0, 0⟩ = some ⟨3, 2⟩ ∧
    (⟨0, 0⟩ : TDNode).generation_ ≤ (⟨3, 2⟩ : TDNode).generation_ ∧
    (set_flag_error true ⟨0, 0⟩).generation_ = (⟨0, 0⟩ : TDNode).generation_ := by
  have h := generation_stamp_behaviour ⟨0, 0⟩ ⟨3, 2⟩
      [(1, .setWrite true), (2, .setRead true)]
      (by decide) (by decide) (by decide)
  exact ⟨by decide, h.1, h.2.2 true⟩

/-- After OR-ing the error flag in, it reads as set. -/
theorem errSet_after_or (n : ErrNode) :
    errSet { n with flags_ := n.flags_ ||| error_flag_e } = true := by
  have h8 : error_flag_e &&& error_flag_e ≠ 0 := by decide
  have hne := land_ne_zero_lor_right n.flags_ error_flag_e h8
  simpa [errSet, bne_iff_ne] using hne

/-- Claim C7: `set_flag<error_flag_e>(true)` on a node whose flag was unset
sets the node's flag; the parent's flag ends up set exactly when the node
has a parent and `should_proxy_error_flag_to_parent()` holds, and when the
predicate is false or there is no parent, no other node of the chain
changes. -/
theorem error_flag_parent_propagation (n : ErrNode) (rest : List ErrNode)
    (h : errSet n = false) :
    (set_error_chain (n :: rest) =
      { n with flags_ := n.flags_ ||| error_flag_e } ::
        (if n.proxy then set_error_chain rest else rest)) ∧
    (n.proxy = false →
      set_error_chain (n :: rest) =
        { n with flags_ := n.flags_ ||| error_flag_e } :: rest) ∧
    (rest = [] →
      set_error_chain (n :: rest) =
        [{ n with flags_ := n.flags_ ||| error_flag_e }]) ∧
    (∀ p rest2, rest = p :: rest2 → n.proxy = true →
      ∃ p2 rest3,
        set_error_chain (n :: rest) =
          { n with flags_ := n.flags_ ||| error_flag_e } :: p2 :: rest3 ∧
        errSet p2 = true) := by
  have hmain : set_error_chain (n :: rest) =
      { n with flags_ := n.flags_ ||| error_flag_e } ::
        (if n.proxy then set_error_chain rest else rest) := by
    simp [set_error_chain, h]
  refine ⟨hmain, ?NP, ?NIL, ?PROP⟩
  · intro hp
    rw [hmain, hp]
    simp
  · intro hr
    rw [hmain, hr]
    cases hp : n.proxy
    · simp
    · simp [set_error_chain]
  · intro p rest2 hr hp
    rw [hmain, hp, hr]
    simp only [if_true]
    cases hps : errSet p
    · refine ⟨{ p with flags_ := p.flags_ ||| error_flag_e },
        if p.proxy then set_error_chain rest2 else rest2, ?E1, errSet_after_or p⟩
      simp [set_error_chain, hps]
    · refine ⟨p, rest2, ?E2, hps⟩
      simp [set_error_chain, hps]

/-- Concrete instantiation of Claim C7: a two-node chain with the proxy
predicate true on the child; the parent's flag ends up set. -/
theorem error_flag_parent_propagation_witness :
    errSet ⟨0, true⟩ = false ∧
    (∃ p2 rest3, set_error_chain [⟨0, true⟩, ⟨0, false⟩] =
      ⟨8, true⟩ :: p2 :: rest3 ∧ errSet p2 = true) := by
  have h := (error_flag_parent_propagation ⟨0, true⟩ [⟨0, false⟩]
      (by decide)).2.2.2 ⟨0, false⟩ [] rfl rfl
  refine ⟨by decide, ?W⟩
  obtain ⟨p2, rest3, heq, hset⟩ := h
  exact ⟨p2, rest3, by simpa using heq, hset⟩

/-- Claim C9 (documents the code bug): on the interleaving where both
threads pass the lock-free null check before either enters the locked
section, the two `string_key` callers for the same string return different
Keys (ids 2 and 4): the locked section performs no re-check of
`node->data`, so the creation race does not converge.  The fully serialized
schedule does converge (both callers get id 2). -/
theorem string_key_race_diverges :
    (raceRun [.A, .B, .A, .B] raceInit).tA = .done 2 ∧
    (raceRun [.A, .B, .A, .B] raceInit).tB = .done 4 ∧
    ((2 : Int) ≠ 4) ∧
    (raceRun [.A, .A, .B, .B] raceInit).tA = .done 2 ∧
    (raceRun [.A, .A, .B, .B] raceInit).tB = .done 2 := by
  exact ⟨by decide, by decide, by decide, by decide, by decide⟩

/-! ## Key-id arithmetic -/

/-- Two's-complement reinterpretation preserves oddness. -/
theorem toSigned32_odd (n : Nat) (h : n % 2 = 1) : toSigned32 n % 2 = 1 := by
  unfold toSigned32
  split <;> omega

/-- Within the non-wrapping range, the integer-key encoding is exact. -/
theorem toSigned32_small (i : Int) (h1 : -1073741824 ≤ i) (h2 : i < 1073741824) :
    toSigned32 (toUnsigned32 i * 2 + 1) = i * 2 + 1 := by
  have h0 : (0 : Int) ≤ i % 4294967296 := Int.emod_nonneg i (by norm_num)
  have hlt : i % 4294967296 < 4294967296 := Int.emod_lt_of_pos i (by norm_num)
  have hcast : (((i % 4294967296).toNat : Nat) : Int) = i % 4294967296 :=
    Int.toNat_of_nonneg h0
  have hee : i % 4294967296 = i ∨ i % 4294967296 = i + 4294967296 := by omega
  unfold toUnsigned32 toSigned32
  split <;> omega

/-- In a state whose integer-bucket entries hold the encoded id of their
unsigned key, `int_key` returns the encoded id, cached or fresh. -/
theorem int_key_id (st : InternerState)
    (hInt : ∀ u id, st.int_keys_ht.lookup u = some id →
      id = toSigned32 (u * 2 + 1))
    (i : Int) :
    (Key.int_key i st).1.id = toSigned32 (toUnsigned32 i * 2 + 1) := by
  cases hl : st.int_keys_ht.lookup (toUnsigned32 i) with
  | some id =>
    have := hInt _ id hl
    simp [Key.int_key, hl, this]
  | none => simp [Key.int_key, hl]

/-- In a state whose string-bucket entries hold even ids of the form
`2n + 2`, `string_key` returns such an id, cached or fresh. -/
theorem string_key_id_exists (st : InternerState)
    (hStr : ∀ h id, st.string_keys_ht.lookup h = some id →
      ∃ n : Nat, id = (n : Int) * 2 + 2)
    (s : ByteStr) :
    ∃ n : Nat, (Key.string_key s st).1.id = (n : Int) * 2 + 2 := by
  cases hl : st.string_keys_ht.lookup (hash_ll s) with
  | some id =>
    obtain ⟨n, hn⟩ := hStr _ id hl
    exact ⟨n, by simp [Key.string_key, hl, hn]⟩
  | none => exact ⟨st.n_string_keys_ht, by simp [Key.string_key, hl]⟩

/-- Claim C2 counterexample: `int_key(2^30)` does not carry the id
`2^30 * 2 + 1` — the unsigned 32-bit encoding wraps and the stored `int`
id is negative. -/
theorem int_key_id_wraps :
    (Key.int_key 1073741824 initState).1.id ≠ 1073741824 * 2 + 1 ∧
    (Key.int_key 1073741824 initState).1.id = -2147483647 := by
  exact ⟨by decide, by decide⟩

/-- Claim C2 (amended): `any_key` has id 0; `int_key(i)` has the odd id
`(i*2+1) mod 2^32` reinterpreted as a signed 32-bit value, which equals
`i*2+1` exactly on the non-wrapping range `-2^30 ≤ i < 2^30`; `string_key`
ids are even values `counter*2+2 ≥ 2`; and in any state whose caches
respect those encodings the three id spaces are pairwise disjoint. -/
theorem key_id_spaces (st : InternerState)
    (hInt : ∀ u id, st.int_keys_ht.lookup u = some id →
      id = toSigned32 (u * 2 + 1))
    (hStr : ∀ h id, st.string_keys_ht.lookup h = some id →
      ∃ n : Nat, id = (n : Int) * 2 + 2)
    (i : Int) (s : ByteStr) :
    Key.any_key.id = 0 ∧
    (Key.int_key i st).1.id = toSigned32 (toUnsigned32 i * 2 + 1) ∧
    (Key.int_key i st).1.id % 2 = 1 ∧
    (-1073741824 ≤ i → i < 1073741824 → (Key.int_key i st).1.id = i * 2 + 1) ∧
    (∃ n : Nat, (Key.string_key s st).1.id = (n : Int) * 2 + 2) ∧
    (Key.int_key i st).1.id ≠ Key.any_key.id ∧
    (Key.string_key s st).1.id ≠ Key.any_key.id ∧
    (Key.int_key i st).1.id ≠ (Key.string_key s st).1.id := by
  have hid := int_key_id st hInt i
  have hodd : (Key.int_key i st).1.id % 2 = 1 := by
    rw [hid]
    apply toSigned32_odd
    omega
  obtain ⟨nn, hnn⟩ := string_key_id_exists st hStr s
  have hany : Key.any_key.id = 0 := rfl
  refine ⟨hany, hid, hodd, ?SMALL, ⟨nn, hnn⟩, ?NE1, ?NE2, ?NE3⟩
  · intro hlo hhi
    rw [hid, toSigned32_small i hlo hhi]
  · rw [hany]
    omega
  · rw [hany]
    omega
  · omega

/-- Concrete instantiation of Claim C2's amended theorem in the initial
state. -/
theorem key_id_spaces_witness :
    Key.any_key.id = 0 ∧
    (Key.int_key 5 initState).1.id = 5 * 2 + 1 ∧
    (∃ n : Nat, (Key.string_key [102, 111, 111] initState).1.id
      = (n : Int) * 2 + 2) ∧
    (Key.int_key 5 initState).1.id ≠ (Key.string_key [102, 111, 111] initState).1.id := by
  have h := key_id_spaces initState
      (by intro u id hl; simp [initState] at hl)
      (by intro hh id hl; simp [initState] at hl)
      5 [102, 111, 111]
  exact ⟨h.1, h.2.2.2.1 (by norm_num) (by norm_num), h.2.2.2.2.1,
    h.2.2.2.2.2.2.2⟩

/-- Claim C1 counterexample: two distinct concrete strings whose `hash_ll`
values collide receive the same Key, because the cache is keyed by the hash
rather than by the string. -/
theorem string_key_not_injective :
    collideA ≠ collideB ∧
    (Key.string_key collideB (Key.string_key collideA initState).2).1
      = (Key.string_key collideA initState).1 := by
  exact ⟨by decide, by decide⟩

/-- Claim C1 (amended): interning `s1` and then `s2` starting from the
empty tables returns equal Keys iff `hash_ll s1 = hash_ll s2`; equal
strings always hash equal, so repeated requests for the same string share a
Key, but distinct strings with colliding hashes do too. -/
theorem string_key_eq_iff_hash_eq (s1 s2 : ByteStr) :
    ((Key.string_key s2 (Key.string_key s1 initState).2).1
      = (Key.string_key s1 initState).1)
    ↔ hash_ll s1 = hash_ll s2 := by
  have h1 : Key.string_key s1 initState
      = (⟨2⟩, ⟨[], [(hash_ll s1, 2)], [(2, s1)], 1⟩) := by
    simp [Key.string_key, initState]
  rw [h1]
  by_cases hh : hash_ll s2 = hash_ll s1
  · have h2 : ([(hash_ll s1, (2 : Int))]).lookup (hash_ll s2) = some 2 := by
      rw [List.lookup_cons]
      simp [hh]
    simp [Key.string_key, h2, hh]
  · have hb : (hash_ll s2 == hash_ll s1) = false := beq_eq_false_iff_ne.mpr hh
    have h2 : ([(hash_ll s1, (2 : Int))]).lookup (hash_ll s2) = none := by
      rw [List.lookup_cons, hb]
      rfl
    simp only [Key.string_key, h2]
    refine iff_of_false ?L (fun he => hh he.symm)
    intro hk
    have hid := congrArg Key.id hk
    norm_num at hid

/-- An odd-id key is classified as an integer key. -/
theorem is_int_key_of_odd (k : Key) (h : k.id % 2 = 1) : k.is_int_key = true := by
  simp only [Key.is_int_key, bne_iff_ne, ne_eq, decide_eq_true_eq]
  omega

/-- Claim C8 counterexample: `to_string(int_key(2^30))` renders the decoded
value of the wrapped 32-bit id, which is `-2^30`, not `2^30`. -/
theorem to_string_int_key_wraps :
    Key.to_string (Key.int_key 1073741824 initState).1
        (Key.int_key 1073741824 initState).2
      ≠ some (intToDecimal 1073741824) ∧
    Key.to_string (Key.int_key 1073741824 initState).1
        (Key.int_key 1073741824 initState).2
      = some (intToDecimal (-1073741824)) := by
  exact ⟨by decide, by decide⟩

/-- Claim C8 (amended): `to_string` decodes by id class — an integer key
renders the decoded integer `(id - 1) / 2` (which equals the requested `i`
on the non-wrapping range `-2^30 ≤ i < 2^30`), a string key returns the
original string stored at interning time, and the any-key returns the fixed
label "Any". -/
theorem to_string_decodes (st : InternerState)
    (hInt : ∀ u id, st.int_keys_ht.lookup u = some id →
      id = toSigned32 (u * 2 + 1))
    (i : Int) :
    (Key.to_string (Key.int_key i st).1 (Key.int_key i st).2
      = some (intToDecimal (Int.tdiv ((Key.int_key i st).1.id - 1) 2))) ∧
    (-1073741824 ≤ i → i < 1073741824 →
      Key.to_string (Key.int_key i st).1 (Key.int_key i st).2
        = some (intToDecimal i)) ∧
    (∀ s2, Key.to_string (Key.string_key s2 initState).1
        (Key.string_key s2 initState).2 = some s2) ∧
    (Key.to_string Key.any_key st = some anyLabel) := by
  have hid := int_key_id st hInt i
  have hodd : (Key.int_key i st).1.id % 2 = 1 := by
    rw [hid]
    apply toSigned32_odd
    omega
  have hint := is_int_key_of_odd _ hodd
  have hfirst : Key.to_string (Key.int_key i st).1 (Key.int_key i st).2
      = some (intToDecimal (Int.tdiv ((Key.int_key i st).1.id - 1) 2)) := by
    simp [Key.to_string, hint]
  refine ⟨hfirst, ?SM, ?ST, ?ANY⟩
  · intro hlo hhi
    rw [hfirst]
    have hsm : (Key.int_key i st).1.id = i * 2 + 1 := by
      rw [hid, toSigned32_small i hlo hhi]
    rw [hsm]
    have h2i : i * 2 + 1 - 1 = 2 * i := by ring
    rw [h2i, Int.mul_tdiv_cancel_left i (by norm_num)]
  · intro s2
    have h1 : Key.string_key s2 initState
        = (⟨2⟩, ⟨[], [(hash_ll s2, 2)], [(2, s2)], 1⟩) := by
      simp [Key.string_key, initState]
    rw [h1]
    rfl
  · rfl

/-- Concrete instantiation of Claim C8's amended theorem. -/
theorem to_string_decodes_witness :
    Key.to_string (Key.int_key 5 initState).1 (Key.int_key 5 initState).2
      = some (intToDecimal 5) ∧
    Key.to_string (Key.string_key [102, 111, 111] initState).1
        (Key.string_key [102, 111, 111] initState).2 = some [102, 111, 111] ∧
    Key.to_string Key.any_key initState = some anyLabel := by
  have h := to_string_decodes initState
      (by intro u id hl; simp [initState] at hl) 5
  exact ⟨h.2.1 (by norm_num) (by norm_num), h.2.2.1 [102, 111, 111], h.2.2.2⟩

/-! ## The lattice join: idempotence and structural commutativity -/

/-- Size-bounded idempotence of the join, in lockstep for trees, optional
children and children lists. -/
theorem setLca_idem_all (jT : Nat → Nat → Nat)
    (jC : Option Nat → Option Nat → Option Nat) (so : Bool)
    (hT : ∀ x, jT x x = x) (hC : ∀ c, jC c c = c) :
    ∀ N : Nat,
      (∀ t : TDTree, sizeOf t ≤ N → setLca jT jC so t t = t) ∧
      (∀ a : Option TDTree, sizeOf a ≤ N → setLcaOpt jT jC so a a = a) ∧
      (∀ l : List (Int × TDTree), sizeOf l ≤ N → mergeSubkeys jT jC so l l = l) := by
  intro N
  induction N with
  | zero =>
    refine ⟨?_, ?_, ?_⟩
    · intro t ht
      cases t with
      | node p c w r o e a s =>
        simp at ht
    · intro a ha
      cases a with
      | none => simp [setLcaOpt]
      | some x => simp at ha
    · intro l hl
      cases l with
      | nil => simp [mergeSubkeys]
      | cons kv rest => simp at hl
  | succ N ih =>
    obtain ⟨ihT, ihO, ihL⟩ := ih
    refine ⟨?_, ?_, ?_⟩
    · intro t ht
      cases t with
      | node p c w r o e a s =>
        simp only [TDTree.node.sizeOf_spec] at ht
        have ha : sizeOf a ≤ N := by omega
        have hs : sizeOf s ≤ N := by omega
        have hw : (w || w) = w := Bool.or_self w
        have hr : (r || r) = r := Bool.or_self r
        have he2 : (e || e) = e := Bool.or_self e
        have ho : (o || (so && o)) = o := by cases o <;> cases so <;> rfl
        simp only [setLca]
        rw [hT p, hC c, hw, hr, ho, he2, ihO a ha, ihL s hs]
    · intro a ha
      cases a with
      | none => simp [setLcaOpt]
      | some x =>
        simp only [Option.some.sizeOf_spec] at ha
        have hx : sizeOf x ≤ N := by omega
        simp only [setLcaOpt]
        rw [ihT x hx]
    · intro l hl
      cases l with
      | nil => simp [mergeSubkeys]
      | cons kv rest =>
        obtain ⟨k, v⟩ := kv
        simp only [List.cons.sizeOf_spec, Prod.mk.sizeOf_spec] at hl
        have hv : sizeOf v ≤ N := by omega
        have hrest : sizeOf rest ≤ N := by omega
        simp only [mergeSubkeys]
        rw [if_neg (lt_irrefl k), if_neg (lt_irrefl k), ihT v hv, ihL rest hrest]

/-- Size-bounded structural commutativity of the join with
`save_or_false = true`, in lockstep for trees, optional children and
children lists. -/
theorem setLca_comm_all (jT : Nat → Nat → Nat)
    (jC : Option Nat → Option Nat → Option Nat)
    (hTc : ∀ x y, jT x y = jT y x) (hCc : ∀ c d, jC c d = jC d c) :
    ∀ N : Nat,
      (∀ a b : TDTree, sizeOf a + sizeOf b ≤ N →
        setLca jT jC true a b = setLca jT jC true b a) ∧
      (∀ x y : Option TDTree, sizeOf x + sizeOf y ≤ N →
        setLcaOpt jT jC true x y = setLcaOpt jT jC true y x) ∧
      (∀ l1 l2 : List (Int × TDTree), sizeOf l1 + sizeOf l2 ≤ N →
        mergeSubkeys jT jC true l1 l2 = mergeSubkeys jT jC true l2 l1) := by
  intro N
  induction N with
  | zero =>
    refine ⟨?_, ?_, ?_⟩
    · intro a b hab
      cases a with
      | node p c w r o e ak s => simp at hab
    · intro x y hxy
      cases x with
      | none =>
        cases y with
        | none => rfl
        | some z => simp only [setLcaOpt]
      | some z =>
        cases y with
        | none => simp only [setLcaOpt]
        | some zz => simp at hxy
    · intro l1 l2 hl
      cases l1 with
      | nil =>
        cases l2 with
        | nil => rfl
        | cons kv rest => simp [mergeSubkeys]
      | cons kv rest =>
        cases l2 with
        | nil => simp [mergeSubkeys]
        | cons kv2 rest2 => simp at hl
  | succ N ih =>
    obtain ⟨ihT, ihO, ihL⟩ := ih
    refine ⟨?_, ?_, ?_⟩
    · intro a b hab
      cases a with
      | node p1 c1 w1 r1 o1 e1 a1 s1 =>
        cases b with
        | node p2 c2 w2 r2 o2 e2 a2 s2 =>
          simp only [TDTree.node.sizeOf_spec] at hab
          have haa : sizeOf a1 + sizeOf a2 ≤ N := by omega
          have hss : sizeOf s1 + sizeOf s2 ≤ N := by omega
          have hw : (w1 || w2) = (w2 || w1) := Bool.or_comm w1 w2
          have hr : (r1 || r2) = (r2 || r1) := Bool.or_comm r1 r2
          have he2 : (e1 || e2) = (e2 || e1) := Bool.or_comm e1 e2
          have ho : (o1 || (true && o2)) = (o2 || (true && o1)) := by
            cases o1 <;> cases o2 <;> rfl
          simp only [setLca]
          rw [hTc p1 p2, hCc c1 c2, hw, hr, ho, he2, ihO a1 a2 haa, ihL s1 s2 hss]
    · intro x y hxy
      cases x with
      | none =>
        cases y with
        | none => rfl
        | some z => simp only [setLcaOpt]
      | some z =>
        cases y with
        | none => simp only [setLcaOpt]
        | some zz =>
          simp only [Option.some.sizeOf_spec] at hxy
          have hz : sizeOf z + sizeOf zz ≤ N := by omega
          simp only [setLcaOpt]
          rw [ihT z zz hz]
    · intro l1 l2 hl
      cases l1 with
      | nil =>
        cases l2 with
        | nil => rfl
        | cons kv rest => simp [mergeSubkeys]
      | cons kv rest =>
        cases l2 with
        | nil => simp [mergeSubkeys]
        | cons kv2 rest2 =>
          obtain ⟨k1, v1⟩ := kv
          obtain ⟨k2, v2⟩ := kv2
          simp only [List.cons.sizeOf_spec, Prod.mk.sizeOf_spec] at hl
          rcases lt_trichotomy k1 k2 with hk | hk | hk
          · have hk2 : ¬ k2 < k1 := not_lt_of_gt hk
            have hrec : sizeOf rest + sizeOf ((k2, v2) :: rest2) ≤ N := by
              simp only [List.cons.sizeOf_spec, Prod.mk.sizeOf_spec]
              omega
            simp only [mergeSubkeys]
            rw [if_pos hk, if_neg hk2, if_pos hk, ihL rest ((k2, v2) :: rest2) hrec]
          · subst hk
            have hvv : sizeOf v1 + sizeOf v2 ≤ N := by omega
            have hrr : sizeOf rest + sizeOf rest2 ≤ N := by omega
            simp only [mergeSubkeys, if_neg (lt_irrefl k1)]
            rw [ihT v1 v2 hvv, ihL rest rest2 hrr]
          · have hk2 : ¬ k1 < k2 := not_lt_of_gt hk
            have hrec : sizeOf ((k1, v1) :: rest) + sizeOf rest2 ≤ N := by
              simp only [List.cons.sizeOf_spec, Prod.mk.sizeOf_spec]
              omega
            simp only [mergeSubkeys]
            rw [if_neg hk2, if_pos hk, if_pos hk, ihL ((k1, v1) :: rest) rest2 hrec]

/-- Claim C5 (spec-modelled): for any idempotent, commutative primitive-tag
join table and class common-ancestor operation (spec §9 leaves both open),
`set_lca` with the default `save_or_false = true` is idempotent —
`x.set_lca(x)` leaves tag, flags and children unchanged — and structurally
commutative — merging `a` into `b` and `b` into `a` yield equal structures
(the model carries no generation stamps, which are the one component allowed
to differ). -/
theorem set_lca_idem_comm (jT : Nat → Nat → Nat)
    (jC : Option Nat → Option Nat → Option Nat)
    (hTi : ∀ x, jT x x = x) (hTc : ∀ x y, jT x y = jT y x)
    (hCi : ∀ c, jC c c = c) (hCc : ∀ c d, jC c d = jC d c) :
    (∀ t : TDTree, setLca jT jC true t t = t) ∧
    (∀ a b : TDTree, setLca jT jC true a b = setLca jT jC true b a) := by
  constructor
  · intro t
    exact (setLca_idem_all jT jC true hTi hCi (sizeOf t)).1 t (le_refl _)
  · intro a b
    exact (setLca_comm_all jT jC hTc hCc (sizeOf a + sizeOf b)).1 a b (le_refl _)

/-- Concrete instantiation of Claim C5, with the max tag join and an
agreement-based class join. -/
theorem set_lca_idem_comm_witness :
    setLca Nat.max clsJoin true tdA tdA = tdA ∧
    setLca Nat.max clsJoin true tdA tdB = setLca Nat.max clsJoin true tdB tdA := by
  have h := set_lca_idem_comm Nat.max clsJoin
      (fun x => Nat.max_self x) (fun x y => Nat.max_comm x y)
      (fun c => by simp [clsJoin])
      (fun c d => by
        unfold clsJoin
        by_cases hcd : c = d
        · subst hcd
          rfl
        · rw [if_neg hcd, if_neg (fun he => hcd he.symm)])
  exact ⟨h.1 tdA, h.2 tdA tdB⟩

/-! ## Depth collapse -/

/-- Every tree has depth at least 1. -/
theorem depthT_pos (t : TDTree) : 1 ≤ depthT t := by
  cases t with
  | node p c w r o e a s =>
    simp only [depthT]
    omega

/-- Truncated children lists have bounded depth. -/
theorem truncList_depth_le (fuel : Nat)
    (ih : ∀ t : TDTree, depthT (truncTree fuel t) ≤ fuel + 1) :
    ∀ s : List (Int × TDTree), depthList (truncTree.truncList fuel s) ≤ fuel + 1 := by
  intro s
  induction s with
  | nil => simp [truncTree.truncList, depthList]
  | cons kv rest ihs =>
    obtain ⟨k, v⟩ := kv
    simp only [truncTree.truncList, depthList]
    exact max_le (ih v) ihs

/-- The truncation bounds the structural depth by `fuel + 1`. -/
theorem truncTree_depth_le : ∀ (fuel : Nat) (t : TDTree),
    depthT (truncTree fuel t) ≤ fuel + 1 := by
  intro fuel
  induction fuel with
  | zero =>
    intro t
    cases t with
    | node p c w r o e a s => simp [truncTree, depthT, depthOpt, depthList]
  | succ fuel ih =>
    intro t
    cases t with
    | node p c w r o e a s =>
      have hopt : depthOpt (truncTree.truncOpt fuel a) ≤ fuel + 1 := by
        cases a with
        | none => simp [truncTree.truncOpt, depthOpt]
        | some x =>
          simp only [truncTree.truncOpt, depthOpt]
          exact ih x
      have hlist := truncList_depth_le fuel ih s
      have hm : max (depthOpt (truncTree.truncOpt fuel a))
          (depthList (truncTree.truncList fuel s)) ≤ fuel + 1 :=
        max_le hopt hlist
      simp only [truncTree, depthT]
      omega

/-- Truncation with enough fuel is the identity, children-list version. -/
theorem truncList_eq_of_le (fuel : Nat)
    (ih : ∀ t : TDTree, depthT t ≤ fuel + 1 → truncTree fuel t = t) :
    ∀ s : List (Int × TDTree), depthList s ≤ fuel + 1 →
      truncTree.truncList fuel s = s := by
  intro s
  induction s with
  | nil =>
    intro _
    simp [truncTree.truncList]
  | cons kv rest ihs =>
    obtain ⟨k, v⟩ := kv
    intro hs
    simp only [depthList] at hs
    simp only [truncTree.truncList]
    rw [ih v (le_trans (le_max_left _ _) hs), ihs (le_trans (le_max_right _ _) hs)]

/-- Truncation with enough fuel is the identity. -/
theorem truncTree_eq_of_le : ∀ (fuel : Nat) (t : TDTree),
    depthT t ≤ fuel + 1 → truncTree fuel t = t := by
  intro fuel
  induction fuel with
  | zero =>
    intro t ht
    cases t with
    | node p c w r o e a s =>
      simp only [depthT] at ht
      have hma := le_max_left (depthOpt a) (depthList s)
      have hms := le_max_right (depthOpt a) (depthList s)
      have ha : depthOpt a = 0 := by omega
      have hs : depthList s = 0 := by omega
      have ha2 : a = none := by
        cases a with
        | none => rfl
        | some x =>
          exfalso
          have hp := depthT_pos x
          simp only [depthOpt] at ha
          omega
      have hs2 : s = [] := by
        cases s with
        | nil => rfl
        | cons kv rest =>
          exfalso
          obtain ⟨k, v⟩ := kv
          have hp := depthT_pos v
          simp only [depthList] at hs
          have := le_max_left (depthT v) (depthList rest)
          omega
      subst ha2
      subst hs2
      simp [truncTree]
  | succ fuel ih =>
    intro t ht
    cases t with
    | node p c w r o e a s =>
      simp only [depthT] at ht
      have hma := le_max_left (depthOpt a) (depthList s)
      have hms := le_max_right (depthOpt a) (depthList s)
      have hab : depthOpt a ≤ fuel + 1 := by omega
      have hsb : depthList s ≤ fuel + 1 := by omega
      have ha : truncTree.truncOpt fuel a = a := by
        cases a with
        | none => simp [truncTree.truncOpt]
        | some x =>
          simp only [truncTree.truncOpt]
          rw [ih x (by simpa [depthOpt] using hab)]
      have hs : truncTree.truncList fuel s = s := truncList_eq_of_le fuel ih s hsb
      simp only [truncTree]
      rw [ha, hs]

/-- Claim C6 (spec-modelled): `fix_inf_array` is a total function — it
terminates on every input, including arbitrarily deep trees built by
repeated merging — its result has structural depth bounded by the collapse
bound, and a tree already within the bound is returned unchanged. -/
theorem fix_inf_array_bounds (bound : Nat) (t : TDTree) :
    depthT (fix_inf_array bound t) ≤ bound + 1 ∧
    (depthT t ≤ bound + 1 → fix_inf_array bound t = t) := by
  exact ⟨truncTree_depth_le bound t, fun h => truncTree_eq_of_le bound t h⟩

/-- Concrete instantiation of Claim C6: a depth-5 any-index chain is
collapsed to within depth 3, and a depth-2 tree is left unchanged. -/
theorem fix_inf_array_bounds_witness :
    depthT (fix_inf_array 2 tdDeep) ≤ 3 ∧
    depthT tdShallow ≤ 3 ∧
    fix_inf_array 2 tdShallow = tdShallow := by
  have hsh : depthT tdShallow ≤ 3 := by
    simp only [tdShallow, depthT, depthOpt, depthList]
    omega
  exact ⟨(fix_inf_array_bounds 2 tdDeep).1, hsh,
    (fix_inf_array_bounds 2 tdShallow).2 hsh⟩
